import Mathlib

/-!
Verification of the semordnilap search engine (`src/semordnilap/search_engine.py`).

Python strings are modelled as `List Char`; Python lists and sets of strings as
`List (List Char)` (set operations in the source are only membership tests and
iteration, so a list model is adequate); Python floats as `ℚ`.  The external
frequency oracle (`wordfreq.zipf_frequency`) is modelled as an arbitrary
function parameter, and the Unicode normalization routines
(`unicodedata.normalize` with forms NFD/NFC) are modelled by a finite canonical
(de)composition table covering the Latin letters carrying the combining marks
relevant to the engine (acute, grave, circumflex, diaeresis, tilde).
-/

namespace Semordnilap

/-- A Python `str`, modelled as its list of characters. -/
abbrev Str : Type := List Char

/-! ## Normalizer (`normalize_word`)

The source computes `unicodedata.normalize("NFD", word)`, removes the four
combining marks U+0301, U+0300, U+0302, U+0308, and recomposes with
`unicodedata.normalize("NFC", ...)`.  The canonical decomposition data is
modelled by `decompTable`: each entry is `(composed, base, mark)`. -/

/-- Canonical single-mark decompositions of precomposed Latin letters:
`(composed character, base letter, combining mark)`. -/
def decompTable : List (Char × Char × Char) :=
  [ ('á', 'a', '́'), ('à', 'a', '̀'), ('â', 'a', '̂'),
    ('ä', 'a', '̈'), ('ã', 'a', '̃'),
    ('é', 'e', '́'), ('è', 'e', '̀'), ('ê', 'e', '̂'),
    ('ë', 'e', '̈'),
    ('í', 'i', '́'), ('ì', 'i', '̀'), ('î', 'i', '̂'),
    ('ï', 'i', '̈'),
    ('ó', 'o', '́'), ('ò', 'o', '̀'), ('ô', 'o', '̂'),
    ('ö', 'o', '̈'), ('õ', 'o', '̃'),
    ('ú', 'u', '́'), ('ù', 'u', '̀'), ('û', 'u', '̂'),
    ('ü', 'u', '̈'),
    ('ý', 'y', '́'), ('ỳ', 'y', '̀'), ('ŷ', 'y', '̂'),
    ('ÿ', 'y', '̈'),
    ('ñ', 'n', '̃'),
    ('Á', 'A', '́'), ('À', 'A', '̀'), ('Â', 'A', '̂'),
    ('Ä', 'A', '̈'), ('Ã', 'A', '̃'),
    ('É', 'E', '́'), ('È', 'E', '̀'), ('Ê', 'E', '̂'),
    ('Ë', 'E', '̈'),
    ('Í', 'I', '́'), ('Ì', 'I', '̀'), ('Î', 'I', '̂'),
    ('Ï', 'I', '̈'),
    ('Ó', 'O', '́'), ('Ò', 'O', '̀'), ('Ô', 'O', '̂'),
    ('Ö', 'O', '̈'), ('Õ', 'O', '̃'),
    ('Ú', 'U', '́'), ('Ù', 'U', '̀'), ('Û', 'U', '̂'),
    ('Ü', 'U', '̈'),
    ('Ý', 'Y', '́'), ('Ỳ', 'Y', '̀'), ('Ŷ', 'Y', '̂'),
    ('Ÿ', 'Y', '̈'),
    ('Ñ', 'N', '̃') ]

/-- Canonical decomposition of a single character (none for unlisted ones). -/
def decompChar (c : Char) : Option (Char × Char) :=
  (decompTable.find? (fun e => e.1 = c)).map (fun e => e.2)

/-- Canonical composition of a base letter with a combining mark. -/
def composeChar (b m : Char) : Option Char :=
  (decompTable.find? (fun e => e.2.1 = b ∧ e.2.2 = m)).map (fun e => e.1)

/-- Model of `unicodedata.normalize("NFD", ·)`: decompose each character. -/
def nfd (s : Str) : Str :=
  s.flatMap (fun c =>
    match decompChar c with
    | some p => [p.1, p.2]
    | none => [c])

/-- The set `remove_unicode_marks` from the source: acute, grave, circumflex,
diaeresis. -/
def remove_unicode_marks : List Char := ['́', '̀', '̂', '̈']

/-- The comprehension `"".join(c for c in word if c not in remove_unicode_marks)`. -/
def stripMarks (s : Str) : Str := s.filter (fun c => !remove_unicode_marks.contains c)

/-- Model of `unicodedata.normalize("NFC", ·)`: recompose adjacent
base-plus-mark pairs left to right. -/
def nfc : Str → Str
  | [] => []
  | [c] => [c]
  | a :: b :: rest =>
    match composeChar a b with
    | some c => c :: nfc rest
    | none => a :: nfc (b :: rest)

/-- `normalize_word` from the source: NFD, strip the four marks, NFC. -/
def normalize_word (word : Str) : Str := nfc (stripMarks (nfd word))

/-! ## Segmentation search (`decompositions_candidates`)

The source runs an iterative depth-first search with an explicit stack
`candidates` of states `(i, phrase)`, popping from the end of the Python list
(modelled here as the head of a Lean list) and appending successor states
`(j, phrase + [target[i:j]])` for each `j` in `range(i+1, len(target)+1)` whose
fragment is in the dictionary (so the largest `j` is popped first).  The loop
is modelled with an explicit fuel argument; `stackW_expand_lt` below shows the
weight `Σ 2^(len(target) - i)` of the stack strictly decreases at every
iteration, so the fuel `2 ^ len(target) + 1` used by
`decompositions_candidates` is never exhausted. -/

/-- The Python slice `target[i:j]`. -/
def slice (tg : Str) (i j : Nat) : Str := (tg.drop i).take (j - i)

/-- Successor states pushed by the inner `for j in range(i+1, len(target)+1)`
loop, in push order. -/
def expand (tg : Str) (dict : List Str) (i : Nat) (phrase : List Str) :
    List (Nat × List Str) :=
  (List.range' (i + 1) (tg.length - i)).filterMap (fun j =>
    if slice tg i j ∈ dict then some (j, phrase ++ [slice tg i j]) else none)

/-- One-step-at-a-time model of the `while candidates:` loop.  The first
argument after `maxN` is the fuel; a state is popped from the head, completed
states are appended to the accumulated solutions, overlong states are pruned,
and otherwise the successors are pushed (reversed, so the largest `j` ends at
the head, matching Python's `pop()` from the end after in-order `append`s). -/
def decompStep (tg : Str) (dict : List Str) (maxN : Nat) :
    Nat → List (Nat × List Str) → List (List Str) → List (List Str)
  | _, [], sols => sols
  | 0, _ :: _, sols => sols
  | fuel + 1, (i, phrase) :: rest, sols =>
    if i = tg.length then
      decompStep tg dict maxN fuel rest (sols ++ [phrase])
    else if maxN ≤ phrase.length then
      decompStep tg dict maxN fuel rest sols
    else
      decompStep tg dict maxN fuel ((expand tg dict i phrase).reverse ++ rest) sols

/-- `decompositions_candidates` from the source: enumerate all ways to split
`norm_target` into at most `maximum_ngrams` consecutive members of
`norm_ngrams`. -/
def decompositions_candidates (norm_target : Str) (norm_ngrams : List Str)
    (maximum_ngrams : Nat) : List (List Str) :=
  decompStep norm_target norm_ngrams maximum_ngrams
    (2 ^ norm_target.length + 1) [(0, [])] []

/-- Weight of a search stack: `Σ 2^(len(target) - i)` over its states. -/
def stackW (tg : Str) (stack : List (Nat × List Str)) : Nat :=
  (stack.map (fun st => 2 ^ (tg.length - st.1))).sum

/-- `ValidFrom tg dict i ts` says the token list `ts` tiles the suffix of `tg`
starting at position `i` with consecutive dictionary fragments. -/
def ValidFrom (tg : Str) (dict : List Str) : Nat → List Str → Prop
  | i, [] => i = tg.length
  | i, t :: rest =>
    ∃ j, i < j ∧ j ≤ tg.length ∧ t = slice tg i j ∧ t ∈ dict ∧
      ValidFrom tg dict j rest

/-- The complete solutions the search eventually produces from a stack state
`(i, phrase)`: `phrase` extended by any valid tiling of the remaining suffix,
subject to the `maximum_ngrams` pruning rule. -/
def StComp (tg : Str) (dict : List Str) (maxN : Nat) (st : Nat × List Str)
    (ts : List Str) : Prop :=
  ∃ rest, ts = st.2 ++ rest ∧ ValidFrom tg dict st.1 rest ∧
    (st.2.length + rest.length ≤ maxN ∨ rest = [])

/-! ## Engine (`find_semordnilaps`)

The engine builds the normalized target dictionary, and for every source word
searches for decompositions of the reversed normalized word with the
segment-count bound hard-coded to `1`, storing each solution's phrase in a
`defaultdict`-of-`defaultdict`-of-`set` keyed by the source word and the token
count.  Nested dictionaries are modelled as association lists (preserving
Python's insertion order), and sets of phrases as duplicate-free lists. -/

/-- Update the value of `key` in an association list, or append
`(key, f d)` when absent — the behaviour of assignment into a Python
`defaultdict` with default `d`. -/
def alUpdate {α β : Type} [DecidableEq α] (f : β → β) (d : β) (key : α) :
    List (α × β) → List (α × β)
  | [] => [(key, f d)]
  | e :: rest =>
    if e.1 = key then (e.1, f e.2) :: rest else e :: alUpdate f d key rest

/-- Read the value of `key` in an association list, with default `d`. -/
def alGet {α β : Type} [DecidableEq α] (d : β) (key : α) : List (α × β) → β
  | [] => d
  | e :: rest => if e.1 = key then e.2 else alGet d key rest

/-- Python `set.add`: append the element unless already present. -/
def setAdd (s : List Str) (p : Str) : List Str := if p ∈ s then s else s ++ [p]

/-- Python `" ".join(sol)`. -/
def joinSpace : List Str → Str
  | [] => []
  | [t] => t
  | t :: u :: rest => t ++ ' ' :: joinSpace (u :: rest)

/-- The inner mapping from segment count to the set of phrases. -/
abbrev Inner : Type := List (Nat × List Str)

/-- The `semordnilaps` result mapping: source word to `Inner`. -/
abbrev SMap : Type := List (Str × Inner)

/-- The statement `semordnilaps[query_ngram][word_count].add(phrase)` with
`phrase = " ".join(sol)` and `word_count = len(sol)`. -/
def recordPhrase (query_ngram : Str) (sol : List Str) (m : SMap) : SMap :=
  alUpdate
    (fun inner => alUpdate (fun s => setAdd s (joinSpace sol)) [] sol.length inner)
    [] query_ngram m

/-- `find_semordnilaps` from the source.  The `threshold` parameter is kept
with the source's signature.  The per-word loop body is exactly the source's:
normalize the query, reverse it, enumerate decompositions against the
normalized target vocabulary with a maximum of `1` segment, and record each
solution. -/
def find_semordnilaps (src_ngrams dst_ngrams : List Str) (threshold : ℚ) :
    SMap :=
  let dst_norm_ngrams := dst_ngrams.map normalize_word
  src_ngrams.foldl
    (fun m query_ngram =>
      (decompositions_candidates (normalize_word query_ngram).reverse
          dst_norm_ngrams 1).foldl
        (fun m' sol => recordPhrase query_ngram sol m') m)
    []

/-- The set of phrases stored under `semordnilaps[w][k]` (empty when the keys
are absent). -/
def lookup3 (m : SMap) (w : Str) (k : Nat) : List Str := alGet [] k (alGet [] w m)

/-- The decomposition solutions computed for the source word `q` inside
`find_semordnilaps` with target vocabulary `dst`. -/
def solsFor (dst : List Str) (q : Str) : List (List Str) :=
  decompositions_candidates (normalize_word q).reverse (dst.map normalize_word) 1

/-- Structural well-formedness of the aggregated map: keys are duplicate-free
at both levels, no inner map is empty, and every phrase set is a non-empty
duplicate-free list. -/
def WF (m : SMap) : Prop :=
  (m.map Prod.fst).Nodup ∧
  ∀ e ∈ m, e.2 ≠ [] ∧ (e.2.map Prod.fst).Nodup ∧
    ∀ q ∈ e.2, q.2 ≠ [] ∧ q.2.Nodup

/-! ## Oracle filter (`filter_common_words`)

The external oracle `wordfreq.zipf_frequency(·, language)` is modelled as an
arbitrary score function. -/

/-- `filter_common_words` from the source: keep the words whose oracle score
reaches the threshold.  `score` stands for `zipf_frequency(·, language)`. -/
def filter_common_words (score : Str → ℚ) (words : List Str) (threshold : ℚ) :
    List Str :=
  words.filter (fun w => threshold ≤ score w)

/-! ## Persistence (`save_semordnilaps`)

The JSON payload written by `save_semordnilaps` is modelled as the nested
association list it serializes: each segment count is rendered as its decimal
string and each phrase set is sorted (Python `sorted` on strings sorts
lexicographically by code point). -/

/-- Python `str(n)` for a natural number. -/
def natToStr (n : Nat) : Str := Nat.toDigits 10 n

/-- Lexicographic (code-point) order on strings, Python's `<=` on `str`. -/
def strLE : Str → Str → Bool
  | [], _ => true
  | _ :: _, [] => false
  | a :: s, b :: t => if a = b then strLE s t else decide (a < b)

/-- Python `sorted` on a set of strings: the lexicographically sorted list. -/
def sortStrs (l : List Str) : List Str :=
  List.insertionSort (fun a b => strLE a b = true) l

/-- The `serializable` dictionary built by `save_semordnilaps`:
`{word: {str(word_count): sorted(phrases)}}`. -/
def save_semordnilaps (semordnilaps : SMap) : List (Str × List (Str × List Str)) :=
  semordnilaps.map (fun e =>
    (e.1, e.2.map (fun q => (natToStr q.1, sortStrs q.2))))

/-- Python `phrase.split(" ")`: split on every single space, keeping empty
pieces. -/
def splitSpace : Str → List Str
  | [] => [[]]
  | c :: rest =>
    match splitSpace rest with
    | [] => [[]]
    | t :: ts => if c = ' ' then [] :: t :: ts else (c :: t) :: ts

/-! ## Concrete vocabulary entries used in witnesses and counterexamples -/

/-- The word `"roma"`. -/
def roma : Str := "roma".toList

/-- The word `"amor"`. -/
def amor : Str := "amor".toList

/-- The word `"sam"`. -/
def sam : Str := "sam".toList

/-- The accented word `"más"`. -/
def masAcc : Str := "más".toList

/-- The unaccented string `"mas"`. -/
def mas : Str := "mas".toList

/-- The two-token vocabulary entry `"a b"`. -/
def aSpaceB : Str := "a b".toList

/-- The source word `"b a"`, whose reversal is `"a b"`. -/
def bSpaceA : Str := "b a".toList

/-- The single-letter word `"a"`. -/
def aWord : Str := "a".toList

/-! ## Properties of the segmentation search -/

lemma stackW_nil (tg : Str) : stackW tg [] = 0 := rfl

lemma stackW_cons (tg : Str) (st : Nat × List Str) (l : List (Nat × List Str)) :
    stackW tg (st :: l) = 2 ^ (tg.length - st.1) + stackW tg l := by
  simp [stackW]

lemma stackW_append (tg : Str) (a b : List (Nat × List Str)) :
    stackW tg (a ++ b) = stackW tg a + stackW tg b := by
  simp [stackW]

lemma stackW_reverse (tg : Str) (a : List (Nat × List Str)) :
    stackW tg a.reverse = stackW tg a := by
  simp [stackW, List.sum_reverse]

lemma sum_pow_range' (n : Nat) :
    ∀ m i, i + m ≤ n →
      ((List.range' (i + 1) m).map (fun j => 2 ^ (n - j))).sum ≤ 2 ^ (n - i) - 1 := by
  intro m
  induction m with
  | zero => intro i _; simp
  | succ m ih =>
    intro i h
    rw [List.range'_succ]
    simp only [List.map_cons, List.sum_cons]
    have h2 := ih (i + 1) (by omega)
    have h3 : n - i = (n - (i + 1)) + 1 := by omega
    have h4 : (1 : Nat) ≤ 2 ^ (n - (i + 1)) := Nat.one_le_two_pow
    rw [h3, pow_succ]
    omega

lemma stackW_filterMap_le (tg : Str) (f : Nat → Option (Nat × List Str))
    (hf : ∀ j st, f j = some st → st.1 = j) :
    ∀ l : List Nat,
      stackW tg (l.filterMap f) ≤ (l.map (fun j => 2 ^ (tg.length - j))).sum := by
  intro l
  induction l with
  | nil => simp [stackW]
  | cons a l ih =>
    rw [List.filterMap_cons]
    cases hfa : f a with
    | none =>
      simp only [List.map_cons, List.sum_cons]
      exact le_trans ih (Nat.le_add_left _ _)
    | some st =>
      have h1 := hf a st hfa
      simp only [List.map_cons, List.sum_cons, stackW_cons, h1]
      exact Nat.add_le_add_left ih _

lemma mem_expand (tg : Str) (dict : List Str) (i : Nat) (phrase : List Str)
    (st : Nat × List Str) :
    st ∈ expand tg dict i phrase ↔
      ∃ j, i < j ∧ j ≤ tg.length ∧ slice tg i j ∈ dict ∧
        st = (j, phrase ++ [slice tg i j]) := by
  simp only [expand, List.mem_filterMap, List.mem_range'_1]
  constructor
  · rintro ⟨j, ⟨hj1, hj2⟩, hst⟩
    by_cases hd : slice tg i j ∈ dict
    · rw [if_pos hd] at hst
      exact ⟨j, by omega, by omega, hd, (Option.some.inj hst).symm⟩
    · rw [if_neg hd] at hst
      exact absurd hst (by simp)
  · rintro ⟨j, hj1, hj2, hd, rfl⟩
    exact ⟨j, ⟨by omega, by omega⟩, by rw [if_pos hd]⟩

lemma stackW_expand_lt (tg : Str) (dict : List Str) (i : Nat) (phrase : List Str) :
    stackW tg (expand tg dict i phrase) < 2 ^ (tg.length - i) := by
  have h1 : stackW tg (expand tg dict i phrase) ≤
      ((List.range' (i + 1) (tg.length - i)).map
        (fun j => 2 ^ (tg.length - j))).sum := by
    refine stackW_filterMap_le tg _ ?_ _
    intro j st h
    by_cases hd : slice tg i j ∈ dict
    · rw [if_pos hd] at h
      obtain rfl : (j, phrase ++ [slice tg i j]) = st := Option.some.inj h
      rfl
    · rw [if_neg hd] at h
      exact absurd h (by simp)
  rcases Nat.lt_or_ge i tg.length with hlt | hge
  · have h2 := sum_pow_range' tg.length (tg.length - i) i (by omega)
    have h3 : (1 : Nat) ≤ 2 ^ (tg.length - i) := Nat.one_le_two_pow
    omega
  · have h0 : tg.length - i = 0 := by omega
    have he : expand tg dict i phrase = [] := by
      unfold expand
      rw [h0]
      rfl
    rw [he, stackW_nil, h0]
    exact Nat.one_pos

lemma validFrom_nil_iff (tg : Str) (dict : List Str) (i : Nat) :
    ValidFrom tg dict i [] ↔ i = tg.length := Iff.rfl

lemma validFrom_cons_iff (tg : Str) (dict : List Str) (i : Nat) (t : Str)
    (rest : List Str) :
    ValidFrom tg dict i (t :: rest) ↔
      ∃ j, i < j ∧ j ≤ tg.length ∧ t = slice tg i j ∧ t ∈ dict ∧
        ValidFrom tg dict j rest := Iff.rfl

lemma validFrom_at_length (tg : Str) (dict : List Str) :
    ∀ rest, ValidFrom tg dict tg.length rest → rest = [] := by
  intro rest h
  cases rest with
  | nil => rfl
  | cons t r =>
    rw [validFrom_cons_iff] at h
    obtain ⟨j, h1, h2, _⟩ := h
    omega

lemma stComp_at_length (tg : Str) (dict : List Str) (maxN : Nat)
    (st : Nat × List Str) (ts : List Str) (h : st.1 = tg.length) :
    StComp tg dict maxN st ts ↔ ts = st.2 := by
  unfold StComp
  constructor
  · rintro ⟨rest, hts, hv, _⟩
    have hr := validFrom_at_length tg dict rest (h ▸ hv)
    subst hr
    simpa using hts
  · rintro rfl
    exact ⟨[], by simp, by rw [validFrom_nil_iff]; exact h, Or.inr rfl⟩

lemma stComp_pruned (tg : Str) (dict : List Str) (maxN : Nat) (i : Nat)
    (phrase : List Str) (ts : List Str) (hne : i ≠ tg.length)
    (hlen : maxN ≤ phrase.length) :
    ¬ StComp tg dict maxN (i, phrase) ts := by
  rintro ⟨rest, hts, hv, hc⟩
  cases rest with
  | nil => rw [validFrom_nil_iff] at hv; exact hne hv
  | cons t r =>
    rcases hc with hc | hc
    · simp only [List.length_cons] at hc
      omega
    · exact absurd hc (by simp)

lemma stComp_expand_iff (tg : Str) (dict : List Str) (maxN : Nat) (i : Nat)
    (phrase : List Str) (ts : List Str) (hne : i ≠ tg.length)
    (hlen : phrase.length < maxN) :
    StComp tg dict maxN (i, phrase) ts ↔
      ∃ st ∈ expand tg dict i phrase, StComp tg dict maxN st ts := by
  constructor
  · rintro ⟨rest, hts, hv, hc⟩
    cases rest with
    | nil => rw [validFrom_nil_iff] at hv; exact absurd hv hne
    | cons t r =>
      rw [validFrom_cons_iff] at hv
      obtain ⟨j, hij, hjn, htj, htd, hvr⟩ := hv
      refine ⟨(j, phrase ++ [slice tg i j]), ?_, ?_⟩
      · rw [mem_expand]
        exact ⟨j, hij, hjn, htj ▸ htd, rfl⟩
      · refine ⟨r, ?_, hvr, Or.inl ?_⟩
        · rw [hts, htj]; simp
        · rcases hc with hc | hc
          · simp only [List.length_cons] at hc
            simp only [List.length_append, List.length_singleton]
            omega
          · exact absurd hc (by simp)
  · rintro ⟨st, hmem, hcomp⟩
    rw [mem_expand] at hmem
    obtain ⟨j, hij, hjn, hd, rfl⟩ := hmem
    obtain ⟨r, hts, hv, hc⟩ := hcomp
    refine ⟨slice tg i j :: r, ?_, ?_, Or.inl ?_⟩
    · rw [hts]; simp
    · rw [validFrom_cons_iff]
      exact ⟨j, hij, hjn, rfl, hd, hv⟩
    · simp only [List.length_cons]
      rcases hc with hc | hc
      · simp only [List.length_append, List.length_singleton] at hc
        omega
      · subst hc
        simp only [List.length_nil]
        omega

lemma mem_decompStep (tg : Str) (dict : List Str) (maxN : Nat) :
    ∀ (fuel : Nat) (stack : List (Nat × List Str)) (sols : List (List Str))
      (ts : List Str), stackW tg stack < fuel →
      (ts ∈ decompStep tg dict maxN fuel stack sols ↔
        ts ∈ sols ∨ ∃ st ∈ stack, StComp tg dict maxN st ts) := by
  intro fuel
  induction fuel with
  | zero => intro stack sols ts h; exact absurd h (Nat.not_lt_zero _)
  | succ fuel ih =>
    rintro (_ | ⟨⟨i, phrase⟩, rest⟩) sols ts h
    · simp [decompStep]
    · have hh : 2 ^ (tg.length - i) + stackW tg rest < fuel + 1 := by
        rw [stackW_cons] at h
        simpa using h
      clear h
      have hone : (1 : Nat) ≤ 2 ^ (tg.length - i) := Nat.one_le_two_pow
      by_cases hi : i = tg.length
      · rw [show decompStep tg dict maxN (fuel + 1) ((i, phrase) :: rest) sols =
            decompStep tg dict maxN fuel rest (sols ++ [phrase]) from by
          simp [decompStep, hi]]
        rw [ih rest (sols ++ [phrase]) ts (by omega)]
        simp only [List.mem_append, List.mem_singleton, List.mem_cons,
          exists_eq_or_imp]
        rw [stComp_at_length tg dict maxN (i, phrase) ts hi]
        tauto
      · by_cases hp : maxN ≤ phrase.length
        · rw [show decompStep tg dict maxN (fuel + 1) ((i, phrase) :: rest) sols =
              decompStep tg dict maxN fuel rest sols from by
            simp [decompStep, hi, hp]]
          rw [ih rest sols ts (by omega)]
          simp only [List.mem_cons, exists_eq_or_imp]
          have hpr := stComp_pruned tg dict maxN i phrase ts hi hp
          tauto
        · have hx := stackW_expand_lt tg dict i phrase
          rw [show decompStep tg dict maxN (fuel + 1) ((i, phrase) :: rest) sols =
              decompStep tg dict maxN fuel
                ((expand tg dict i phrase).reverse ++ rest) sols from by
            simp [decompStep, hi, hp]]
          rw [ih _ sols ts (by rw [stackW_append, stackW_reverse]; omega)]
          simp only [List.mem_cons, exists_eq_or_imp, List.mem_append,
            List.mem_reverse]
          rw [stComp_expand_iff tg dict maxN i phrase ts hi (by omega)]
          constructor
          · rintro (hs | ⟨st, (hst | hst), hc⟩)
            · exact Or.inl hs
            · exact Or.inr (Or.inl ⟨st, hst, hc⟩)
            · exact Or.inr (Or.inr ⟨st, hst, hc⟩)
          · rintro (hs | ⟨st, hst, hc⟩ | ⟨st, hst, hc⟩)
            · exact Or.inl hs
            · exact Or.inr ⟨st, Or.inl hst, hc⟩
            · exact Or.inr ⟨st, Or.inr hst, hc⟩

lemma mem_decompositions_candidates (tg : Str) (dict : List Str) (maxN : Nat)
    (ts : List Str) :
    ts ∈ decompositions_candidates tg dict maxN ↔
      ValidFrom tg dict 0 ts ∧ ts.length ≤ maxN := by
  unfold decompositions_candidates
  rw [mem_decompStep tg dict maxN _ _ _ ts (by simp [stackW])]
  constructor
  · rintro (hs | ⟨st, hst, hc⟩)
    · exact absurd hs (List.not_mem_nil ts)
    · rw [List.mem_singleton] at hst
      subst hst
      unfold StComp at hc
      obtain ⟨rest, hts, hv, hcond⟩ := hc
      simp only [List.nil_append] at hts
      subst hts
      refine ⟨hv, ?_⟩
      rcases hcond with hc | hc
      · simpa using hc
      · subst hc; simp
  · rintro ⟨hv, hl⟩
    refine Or.inr ⟨(0, []), List.mem_singleton_self _, ?_⟩
    unfold StComp
    exact ⟨ts, by simp, hv, Or.inl (by simpa using hl)⟩

lemma slice_append_drop (tg : Str) (i j : Nat) (h1 : i ≤ j) (h2 : j ≤ tg.length) :
    slice tg i j ++ tg.drop j = tg.drop i := by
  have h3 : tg.drop j = (tg.drop i).drop (j - i) := by
    rw [List.drop_drop]
    congr 1
    omega
  unfold slice
  rw [h3, List.take_append_drop]

lemma slice_length (tg : Str) (i j : Nat) (h2 : j ≤ tg.length) :
    (slice tg i j).length = j - i := by
  unfold slice
  rw [List.length_take, List.length_drop, min_eq_left (by omega)]

lemma validFrom_iff_flatten (tg : Str) (dict : List Str) :
    ∀ (ts : List Str) (i : Nat), i ≤ tg.length →
      (ValidFrom tg dict i ts ↔
        ((∀ t ∈ ts, t ∈ dict ∧ t ≠ []) ∧ ts.flatten = tg.drop i)) := by
  intro ts
  induction ts with
  | nil =>
    intro i h
    rw [validFrom_nil_iff]
    simp only [List.not_mem_nil, false_implies, implies_true, true_and,
      List.flatten_nil]
    constructor
    · rintro rfl
      rw [List.drop_length]
    · intro h2
      have := congrArg List.length h2
      simp only [List.length_nil, List.length_drop] at this
      omega
  | cons t rest ih =>
    intro i h
    rw [validFrom_cons_iff]
    constructor
    · rintro ⟨j, hij, hjn, htj, htd, hv⟩
      obtain ⟨hall, hjoin⟩ := (ih j hjn).mp hv
      refine ⟨?_, ?_⟩
      · intro u hu
        rcases List.mem_cons.mp hu with rfl | hu
        · refine ⟨htd, ?_⟩
          intro hnil
          have hsl := slice_length tg i j hjn
          rw [← htj, hnil] at hsl
          simp only [List.length_nil] at hsl
          omega
        · exact hall u hu
      · rw [List.flatten_cons, hjoin, htj,
          slice_append_drop tg i j (by omega) hjn]
    · rintro ⟨hall, hjoin⟩
      obtain ⟨htd, htne⟩ := hall t (List.mem_cons_self t rest)
      rw [List.flatten_cons] at hjoin
      have hlen : t.length + rest.flatten.length = tg.length - i := by
        have := congrArg List.length hjoin
        simp only [List.length_append, List.length_drop] at this
        omega
      have htpos : 0 < t.length := List.length_pos.mpr htne
      have htake : (t ++ rest.flatten).take t.length = t := List.take_left t rest.flatten
      have hdrop : (t ++ rest.flatten).drop t.length = rest.flatten := List.drop_left t rest.flatten
      refine ⟨i + t.length, by omega, by omega, ?_, htd, ?_⟩
      · unfold slice
        rw [show i + t.length - i = t.length from by omega, ← hjoin, htake]
      · refine (ih (i + t.length) (by omega)).mpr
          ⟨fun u hu => hall u (List.mem_cons_of_mem t hu), ?_⟩
        calc rest.flatten = (t ++ rest.flatten).drop t.length := hdrop.symm
          _ = (tg.drop i).drop t.length := by rw [hjoin]
          _ = tg.drop (i + t.length) := by rw [List.drop_drop]

/-! ## Properties of the aggregation map -/

lemma alUpdate_nil {α β : Type} [DecidableEq α] (f : β → β) (d : β) (key : α) :
    alUpdate f d key ([] : List (α × β)) = [(key, f d)] := rfl

lemma alUpdate_cons {α β : Type} [DecidableEq α] (f : β → β) (d : β)
    (key a : α) (b : β) (rest : List (α × β)) :
    alUpdate f d key ((a, b) :: rest) =
      if a = key then (a, f b) :: rest else (a, b) :: alUpdate f d key rest := rfl

lemma alGet_nil {α β : Type} [DecidableEq α] (d : β) (key : α) :
    alGet d key ([] : List (α × β)) = d := rfl

lemma alGet_cons {α β : Type} [DecidableEq α] (d : β) (key a : α) (b : β)
    (rest : List (α × β)) :
    alGet d key ((a, b) :: rest) = if a = key then b else alGet d key rest := rfl

lemma alGet_alUpdate_same {α β : Type} [DecidableEq α] {f : β → β} {d : β}
    {key : α} :
    ∀ l : List (α × β), alGet d key (alUpdate f d key l) = f (alGet d key l) := by
  intro l
  induction l with
  | nil => rw [alUpdate_nil, alGet_nil, alGet_cons, if_pos rfl]
  | cons e rest ih =>
    obtain ⟨a, b⟩ := e
    by_cases he : a = key
    · rw [alUpdate_cons, if_pos he, alGet_cons, if_pos he, alGet_cons, if_pos he]
    · rw [alUpdate_cons, if_neg he, alGet_cons, if_neg he, alGet_cons, if_neg he,
        ih]

lemma alGet_alUpdate_ne {α β : Type} [DecidableEq α] {f : β → β} {d d' : β}
    {key key' : α} (h : key' ≠ key) :
    ∀ l : List (α × β), alGet d key' (alUpdate f d' key l) = alGet d key' l := by
  intro l
  induction l with
  | nil =>
    rw [alUpdate_nil, alGet_cons, if_neg (fun hc => h (hc.symm))]
  | cons e rest ih =>
    obtain ⟨a, b⟩ := e
    by_cases he : a = key
    · have hne : ¬ a = key' := by
        rw [he]
        exact fun hc => h hc.symm
      rw [alUpdate_cons, if_pos he, alGet_cons, alGet_cons, if_neg hne, if_neg hne]
    · by_cases he' : a = key'
      · rw [alUpdate_cons, if_neg he, alGet_cons, if_pos he', alGet_cons,
          if_pos he']
      · rw [alUpdate_cons, if_neg he, alGet_cons, if_neg he', alGet_cons,
          if_neg he', ih]

lemma mem_keys_alUpdate {α β : Type} [DecidableEq α] {f : β → β} {d : β}
    {key a : α} :
    ∀ l : List (α × β),
      (a ∈ (alUpdate f d key l).map Prod.fst ↔ a = key ∨ a ∈ l.map Prod.fst) := by
  intro l
  induction l with
  | nil => simp [alUpdate_nil]
  | cons e rest ih =>
    obtain ⟨a', b⟩ := e
    by_cases he : a' = key
    · rw [alUpdate_cons, if_pos he]
      simp only [List.map_cons, List.mem_cons, he]
      tauto
    · rw [alUpdate_cons, if_neg he]
      simp only [List.map_cons, List.mem_cons, ih]
      tauto

lemma keys_nodup_alUpdate {α β : Type} [DecidableEq α] {f : β → β} {d : β}
    {key : α} :
    ∀ l : List (α × β), (l.map Prod.fst).Nodup →
      ((alUpdate f d key l).map Prod.fst).Nodup := by
  intro l
  induction l with
  | nil => intro _; simp [alUpdate_nil]
  | cons e rest ih =>
    obtain ⟨a, b⟩ := e
    intro h
    simp only [List.map_cons, List.nodup_cons] at h
    by_cases he : a = key
    · rw [alUpdate_cons, if_pos he]
      simp only [List.map_cons, List.nodup_cons]
      exact h
    · rw [alUpdate_cons, if_neg he]
      simp only [List.map_cons, List.nodup_cons]
      refine ⟨?_, ih h.2⟩
      intro hc
      rcases (mem_keys_alUpdate rest).mp hc with hc | hc
      · exact he hc
      · exact h.1 hc

lemma mem_alUpdate {α β : Type} [DecidableEq α] {f : β → β} {d : β} {key : α}
    {x : α × β} :
    ∀ l : List (α × β), x ∈ alUpdate f d key l →
      x ∈ l ∨ x = (key, f d) ∨ ∃ c, (key, c) ∈ l ∧ x = (key, f c) := by
  intro l
  induction l with
  | nil =>
    intro h
    rw [alUpdate_nil, List.mem_singleton] at h
    exact Or.inr (Or.inl h)
  | cons e rest ih =>
    obtain ⟨a, b⟩ := e
    intro h
    by_cases he : a = key
    · rw [alUpdate_cons, if_pos he] at h
      rcases List.mem_cons.mp h with h | h
      · subst he
        exact Or.inr (Or.inr ⟨b, List.mem_cons_self _ rest, h⟩)
      · exact Or.inl (List.mem_cons_of_mem _ h)
    · rw [alUpdate_cons, if_neg he] at h
      rcases List.mem_cons.mp h with h | h
      · exact Or.inl (h ▸ List.mem_cons_self _ rest)
      · rcases ih h with h' | h' | ⟨c, hc, h'⟩
        · exact Or.inl (List.mem_cons_of_mem _ h')
        · exact Or.inr (Or.inl h')
        · exact Or.inr (Or.inr ⟨c, List.mem_cons_of_mem _ hc, h'⟩)

lemma alGet_mem_or {α β : Type} [DecidableEq α] (d : β) (key : α) :
    ∀ l : List (α × β), alGet d key l = d ∨ (key, alGet d key l) ∈ l := by
  intro l
  induction l with
  | nil => exact Or.inl rfl
  | cons e rest ih =>
    obtain ⟨a, b⟩ := e
    by_cases he : a = key
    · right
      rw [alGet_cons, if_pos he]
      subst he
      exact List.mem_cons_self _ rest
    · rw [alGet_cons, if_neg he]
      rcases ih with ih | ih
      · exact Or.inl ih
      · exact Or.inr (List.mem_cons_of_mem _ ih)

lemma alGet_eq_of_mem {α β : Type} [DecidableEq α] {d : β} {key : α} {v : β} :
    ∀ l : List (α × β), (l.map Prod.fst).Nodup → (key, v) ∈ l →
      alGet d key l = v := by
  intro l
  induction l with
  | nil => intro _ h; exact absurd h (List.not_mem_nil _)
  | cons e rest ih =>
    obtain ⟨a, b⟩ := e
    intro hnd h
    simp only [List.map_cons, List.nodup_cons] at hnd
    rcases List.mem_cons.mp h with he | h
    · injection he with h1 h2
      subst h1
      subst h2
      rw [alGet_cons, if_pos rfl]
    · by_cases hk : a = key
      · subst hk
        have : a ∈ rest.map Prod.fst := List.mem_map_of_mem Prod.fst h
        exact absurd this hnd.1
      · rw [alGet_cons, if_neg hk]
        exact ih hnd.2 h

lemma alUpdate_ne_nil {α β : Type} [DecidableEq α] {f : β → β} {d : β}
    {key : α} :
    ∀ l : List (α × β), alUpdate f d key l ≠ [] := by
  intro l
  cases l with
  | nil => simp [alUpdate_nil]
  | cons e rest =>
    obtain ⟨a, b⟩ := e
    by_cases he : a = key
    · rw [alUpdate_cons, if_pos he]
      simp
    · rw [alUpdate_cons, if_neg he]
      simp

lemma mem_setAdd (s : List Str) (p q : Str) :
    q ∈ setAdd s p ↔ q ∈ s ∨ q = p := by
  unfold setAdd
  by_cases hp : p ∈ s
  · rw [if_pos hp]
    constructor
    · exact Or.inl
    · rintro (h | rfl)
      · exact h
      · exact hp
  · rw [if_neg hp]
    simp

lemma setAdd_ne_nil (s : List Str) (p : Str) : setAdd s p ≠ [] := by
  unfold setAdd
  by_cases hp : p ∈ s
  · rw [if_pos hp]
    intro h
    rw [h] at hp
    exact absurd hp (List.not_mem_nil p)
  · rw [if_neg hp]
    simp

lemma setAdd_nodup (s : List Str) (p : Str) (h : s.Nodup) :
    (setAdd s p).Nodup := by
  unfold setAdd
  by_cases hp : p ∈ s
  · rw [if_pos hp]; exact h
  · rw [if_neg hp]
    rw [List.nodup_append]
    exact ⟨h, List.nodup_singleton p, by
      intro a ha hap
      rw [List.mem_singleton] at hap
      exact hp (hap ▸ ha)⟩

/-! ## Characterization of the engine's aggregation -/

lemma lookup3_recordPhrase (q : Str) (sol : List Str) (m : SMap) (w : Str)
    (k : Nat) (p : Str) :
    p ∈ lookup3 (recordPhrase q sol m) w k ↔
      p ∈ lookup3 m w k ∨ (w = q ∧ k = sol.length ∧ p = joinSpace sol) := by
  unfold lookup3 recordPhrase
  by_cases hw : w = q
  · subst hw
    rw [alGet_alUpdate_same]
    by_cases hk : k = sol.length
    · subst hk
      rw [alGet_alUpdate_same, mem_setAdd]
      tauto
    · rw [alGet_alUpdate_ne hk]
      tauto
  · rw [alGet_alUpdate_ne hw]
    tauto

lemma innerKeys_recordPhrase (q : Str) (sol : List Str) (m : SMap) (w : Str)
    (k : Nat) :
    k ∈ (alGet [] w (recordPhrase q sol m)).map Prod.fst ↔
      k ∈ (alGet [] w m).map Prod.fst ∨ (w = q ∧ k = sol.length) := by
  unfold recordPhrase
  by_cases hw : w = q
  · subst hw
    rw [alGet_alUpdate_same, mem_keys_alUpdate]
    tauto
  · rw [alGet_alUpdate_ne hw]
    tauto

lemma keys_recordPhrase (q : Str) (sol : List Str) (m : SMap) (w : Str) :
    w ∈ (recordPhrase q sol m).map Prod.fst ↔ w = q ∨ w ∈ m.map Prod.fst :=
  mem_keys_alUpdate m

lemma wf_recordPhrase (q : Str) (sol : List Str) (m : SMap) (h : WF m) :
    WF (recordPhrase q sol m) := by
  obtain ⟨hnd, hent⟩ := h
  refine ⟨keys_nodup_alUpdate m hnd, ?_⟩
  intro e he
  rcases mem_alUpdate m he with he' | he' | ⟨c, hc, he'⟩
  · exact hent e he'
  · subst he'
    refine ⟨alUpdate_ne_nil _, keys_nodup_alUpdate [] (by simp), ?_⟩
    intro x hx
    rcases mem_alUpdate [] hx with hx' | hx' | ⟨s, hs, hx'⟩
    · exact absurd hx' (List.not_mem_nil _)
    · subst hx'
      dsimp only
      exact ⟨setAdd_ne_nil _ _, setAdd_nodup _ _ List.nodup_nil⟩
    · exact absurd hs (List.not_mem_nil _)
  · subst he'
    obtain ⟨hcne, hcnd, hcset⟩ := hent (q, c) hc
    refine ⟨alUpdate_ne_nil _, keys_nodup_alUpdate c hcnd, ?_⟩
    intro x hx
    rcases mem_alUpdate c hx with hx' | hx' | ⟨s, hs, hx'⟩
    · exact hcset x hx'
    · subst hx'
      dsimp only
      exact ⟨setAdd_ne_nil _ _, setAdd_nodup _ _ List.nodup_nil⟩
    · subst hx'
      obtain ⟨hsne, hsnd⟩ := hcset (sol.length, s) hs
      dsimp only
      exact ⟨setAdd_ne_nil _ _, setAdd_nodup _ _ hsnd⟩

lemma lookup3_innerFold (q : Str) :
    ∀ (sols : List (List Str)) (m : SMap) (w : Str) (k : Nat) (p : Str),
      p ∈ lookup3 (sols.foldl (fun m' sol => recordPhrase q sol m') m) w k ↔
        p ∈ lookup3 m w k ∨
          (w = q ∧ ∃ sol ∈ sols, k = sol.length ∧ p = joinSpace sol) := by
  intro sols
  induction sols with
  | nil => intro m w k p; simp
  | cons sol sols ih =>
    intro m w k p
    rw [List.foldl_cons, ih, lookup3_recordPhrase]
    simp only [List.mem_cons, exists_eq_or_imp]
    tauto

lemma innerKeys_innerFold (q : Str) :
    ∀ (sols : List (List Str)) (m : SMap) (w : Str) (k : Nat),
      k ∈ (alGet [] w
          (sols.foldl (fun m' sol => recordPhrase q sol m') m)).map Prod.fst ↔
        k ∈ (alGet [] w m).map Prod.fst ∨
          (w = q ∧ ∃ sol ∈ sols, k = sol.length) := by
  intro sols
  induction sols with
  | nil => intro m w k; simp
  | cons sol sols ih =>
    intro m w k
    rw [List.foldl_cons, ih, innerKeys_recordPhrase]
    simp only [List.mem_cons, exists_eq_or_imp]
    tauto

lemma keys_innerFold (q : Str) :
    ∀ (sols : List (List Str)) (m : SMap) (w : Str),
      w ∈ ((sols.foldl (fun m' sol => recordPhrase q sol m') m)).map Prod.fst ↔
        w ∈ m.map Prod.fst ∨ (w = q ∧ sols ≠ []) := by
  intro sols
  induction sols with
  | nil => intro m w; simp
  | cons sol sols ih =>
    intro m w
    rw [List.foldl_cons, ih, keys_recordPhrase]
    simp only [ne_eq, List.cons_ne_nil, not_false_eq_true, and_true]
    tauto

lemma wf_innerFold (q : Str) :
    ∀ (sols : List (List Str)) (m : SMap), WF m →
      WF (sols.foldl (fun m' sol => recordPhrase q sol m') m) := by
  intro sols
  induction sols with
  | nil => intro m h; exact h
  | cons sol sols ih =>
    intro m h
    rw [List.foldl_cons]
    exact ih _ (wf_recordPhrase q sol m h)

lemma find_semordnilaps_eq_foldl (src dst : List Str) (t : ℚ) :
    find_semordnilaps src dst t =
      src.foldl (fun m q =>
        (solsFor dst q).foldl (fun m' sol => recordPhrase q sol m') m) [] := rfl

lemma lookup3_find_aux (dst : List Str) :
    ∀ (src : List Str) (m : SMap) (w : Str) (k : Nat) (p : Str),
      p ∈ lookup3 (src.foldl (fun m' q =>
          (solsFor dst q).foldl (fun m'' sol => recordPhrase q sol m'') m') m)
          w k ↔
        p ∈ lookup3 m w k ∨
          (w ∈ src ∧ ∃ sol ∈ solsFor dst w, k = sol.length ∧ p = joinSpace sol) := by
  intro src
  induction src with
  | nil => intro m w k p; simp
  | cons q src ih =>
    intro m w k p
    rw [List.foldl_cons, ih, lookup3_innerFold]
    simp only [List.mem_cons]
    constructor
    · rintro ((h | ⟨rfl, h⟩) | ⟨hw, h⟩)
      · exact Or.inl h
      · exact Or.inr ⟨Or.inl rfl, h⟩
      · exact Or.inr ⟨Or.inr hw, h⟩
    · rintro (h | ⟨rfl | hw, h⟩)
      · exact Or.inl (Or.inl h)
      · exact Or.inl (Or.inr ⟨rfl, h⟩)
      · exact Or.inr ⟨hw, h⟩

lemma lookup3_find (src dst : List Str) (t : ℚ) (w : Str) (k : Nat) (p : Str) :
    p ∈ lookup3 (find_semordnilaps src dst t) w k ↔
      w ∈ src ∧ ∃ sol ∈ solsFor dst w, k = sol.length ∧ p = joinSpace sol := by
  rw [find_semordnilaps_eq_foldl, lookup3_find_aux]
  simp [lookup3, alGet]

lemma innerKeys_find_aux (dst : List Str) :
    ∀ (src : List Str) (m : SMap) (w : Str) (k : Nat),
      k ∈ (alGet [] w (src.foldl (fun m' q =>
          (solsFor dst q).foldl (fun m'' sol => recordPhrase q sol m'') m') m)
          ).map Prod.fst ↔
        k ∈ (alGet [] w m).map Prod.fst ∨
          (w ∈ src ∧ ∃ sol ∈ solsFor dst w, k = sol.length) := by
  intro src
  induction src with
  | nil => intro m w k; simp
  | cons q src ih =>
    intro m w k
    rw [List.foldl_cons, ih, innerKeys_innerFold]
    simp only [List.mem_cons]
    constructor
    · rintro ((h | ⟨rfl, h⟩) | ⟨hw, h⟩)
      · exact Or.inl h
      · exact Or.inr ⟨Or.inl rfl, h⟩
      · exact Or.inr ⟨Or.inr hw, h⟩
    · rintro (h | ⟨rfl | hw, h⟩)
      · exact Or.inl (Or.inl h)
      · exact Or.inl (Or.inr ⟨rfl, h⟩)
      · exact Or.inr ⟨hw, h⟩

lemma innerKeys_find (src dst : List Str) (t : ℚ) (w : Str) (k : Nat) :
    k ∈ (alGet [] w (find_semordnilaps src dst t)).map Prod.fst ↔
      w ∈ src ∧ ∃ sol ∈ solsFor dst w, k = sol.length := by
  rw [find_semordnilaps_eq_foldl, innerKeys_find_aux]
  simp [alGet]

lemma keys_find_aux (dst : List Str) :
    ∀ (src : List Str) (m : SMap) (w : Str),
      w ∈ (src.foldl (fun m' q =>
          (solsFor dst q).foldl (fun m'' sol => recordPhrase q sol m'') m') m
          ).map Prod.fst →
        w ∈ m.map Prod.fst ∨ w ∈ src := by
  intro src
  induction src with
  | nil => intro m w h; exact Or.inl h
  | cons q src ih =>
    intro m w h
    rw [List.foldl_cons] at h
    rcases ih _ w h with h' | h'
    · rcases (keys_innerFold q _ m w).mp h' with h'' | ⟨rfl, _⟩
      · exact Or.inl h''
      · exact Or.inr (List.mem_cons_self _ _)
    · exact Or.inr (List.mem_cons_of_mem q h')

lemma keys_find_sub (src dst : List Str) (t : ℚ) (w : Str)
    (h : w ∈ (find_semordnilaps src dst t).map Prod.fst) : w ∈ src := by
  rw [find_semordnilaps_eq_foldl] at h
  rcases keys_find_aux dst src [] w h with h' | h'
  · exact absurd h' (by simp)
  · exact h'

lemma wf_find (src dst : List Str) (t : ℚ) : WF (find_semordnilaps src dst t) := by
  rw [find_semordnilaps_eq_foldl]
  have : ∀ (s : List Str) (m : SMap), WF m →
      WF (s.foldl (fun m' q =>
        (solsFor dst q).foldl (fun m'' sol => recordPhrase q sol m'') m') m) := by
    intro s
    induction s with
    | nil => intro m h; exact h
    | cons q s ih =>
      intro m h
      rw [List.foldl_cons]
      exact ih _ (wf_innerFold q _ m h)
  exact this src [] ⟨by simp, by simp⟩

/-! ## Properties of the normalizer -/

lemma decompTable_sound :
    ∀ e ∈ decompTable, decompChar e.2.1 = none ∧ decompChar e.2.2 = none := by
  decide

lemma decompTable_keys_nodup : (decompTable.map Prod.fst).Nodup := by decide

lemma find?_fst_of_mem {β : Type} :
    ∀ (l : List (Char × β)) (e₀ : Char × β), (l.map Prod.fst).Nodup → e₀ ∈ l →
      l.find? (fun e => e.1 = e₀.1) = some e₀ := by
  intro l
  induction l with
  | nil => intro e₀ _ h; exact absurd h (List.not_mem_nil _)
  | cons a l ih =>
    intro e₀ hnd he
    simp only [List.map_cons, List.nodup_cons] at hnd
    rcases List.mem_cons.mp he with rfl | he
    · rw [List.find?_cons_of_pos _ (by simp)]
    · by_cases hae : a.1 = e₀.1
      · have : a.1 ∈ l.map Prod.fst := by
          rw [hae]
          exact List.mem_map_of_mem Prod.fst he
        exact absurd this hnd.1
      · rw [List.find?_cons_of_neg _ (by simp [hae])]
        exact ih e₀ hnd.2 he

lemma decompChar_of_composeChar {b m c : Char} (h : composeChar b m = some c) :
    decompChar c = some (b, m) := by
  unfold composeChar at h
  cases hf : decompTable.find? (fun e => e.2.1 = b ∧ e.2.2 = m) with
  | none => rw [hf] at h; exact absurd h (by simp)
  | some e₀ =>
    rw [hf, Option.map_some'] at h
    have hmem := List.mem_of_find?_eq_some hf
    have hpred := List.find?_some hf
    rw [decide_eq_true_eq] at hpred
    obtain ⟨hb, hm⟩ := hpred
    have hc : e₀.1 = c := Option.some.inj h
    unfold decompChar
    rw [← hc, find?_fst_of_mem decompTable e₀ decompTable_keys_nodup hmem,
      Option.map_some']
    obtain ⟨c₀, b₀, m₀⟩ := e₀
    simp only at hb hm
    rw [hb, hm]

lemma nfd_cons (c : Char) (s : Str) :
    nfd (c :: s) =
      (match decompChar c with | some p => [p.1, p.2] | none => [c]) ++ nfd s := by
  unfold nfd
  rw [List.flatMap_cons]

lemma decompChar_nfd_none (s : Str) : ∀ c' ∈ nfd s, decompChar c' = none := by
  intro c' h
  unfold nfd at h
  rw [List.mem_flatMap] at h
  obtain ⟨a, ha, hc'⟩ := h
  cases hd : decompChar a with
  | none =>
    rw [hd] at hc'
    simp only [List.mem_singleton] at hc'
    subst hc'
    exact hd
  | some p =>
    rw [hd] at hc'
    unfold decompChar at hd
    cases hf : decompTable.find? (fun e => e.1 = a) with
    | none => rw [hf] at hd; exact absurd hd (by simp)
    | some e₀ =>
      rw [hf, Option.map_some'] at hd
      have hmem := List.mem_of_find?_eq_some hf
      have hsound := decompTable_sound e₀ hmem
      obtain rfl := Option.some.inj hd
      rcases List.mem_cons.mp hc' with rfl | hc'
      · exact hsound.1
      · simp only [List.mem_singleton] at hc'
        subst hc'
        exact hsound.2

lemma stripMarks_sub (s : Str) : ∀ c ∈ stripMarks s, c ∈ s :=
  fun _ h => List.mem_of_mem_filter h

lemma stripMarks_idem (s : Str) : stripMarks (stripMarks s) = stripMarks s := by
  unfold stripMarks
  rw [List.filter_filter]
  congr 1
  funext c
  rw [Bool.and_self]

lemma nfd_nfc_of_flat : ∀ u : Str, (∀ c ∈ u, decompChar c = none) →
    nfd (nfc u) = u := by
  intro u
  induction u using nfc.induct with
  | case1 => intro _; rfl
  | case2 c =>
    intro h
    have hc := h c (List.mem_singleton_self c)
    show nfd [c] = [c]
    rw [nfd_cons, hc]
    rfl
  | case3 a b rest c hc ih =>
    intro h
    have h1 : nfc (a :: b :: rest) = c :: nfc rest := by
      simp only [nfc, hc]
    rw [h1, nfd_cons, decompChar_of_composeChar hc]
    rw [ih (fun c' hc' => h c' (List.mem_cons_of_mem a (List.mem_cons_of_mem b hc')))]
    rfl
  | case4 a b rest hc ih =>
    intro h
    have h1 : nfc (a :: b :: rest) = a :: nfc (b :: rest) := by
      simp only [nfc, hc]
    rw [h1, nfd_cons, h a (List.mem_cons_self a _)]
    rw [ih (fun c' hc' => h c' (List.mem_cons_of_mem a hc'))]
    rfl

lemma normalize_word_idem (s : Str) :
    normalize_word (normalize_word s) = normalize_word s := by
  unfold normalize_word
  have hu : ∀ c ∈ stripMarks (nfd s), decompChar c = none :=
    fun c hc => decompChar_nfd_none s c (stripMarks_sub _ c hc)
  rw [nfd_nfc_of_flat (stripMarks (nfd s)) hu, stripMarks_idem]

/-! ## Properties of phrase joining and splitting -/

lemma splitSpace_no_space : ∀ s : Str, ' ' ∉ s → splitSpace s = [s] := by
  intro s
  induction s with
  | nil => intro _; rfl
  | cons c rest ih =>
    intro h
    have hc : ¬ c = ' ' := fun hcc => h (hcc ▸ List.mem_cons_self _ _)
    have hr : ' ' ∉ rest := fun hmem => h (List.mem_cons_of_mem _ hmem)
    have h1 : splitSpace (c :: rest) =
        match splitSpace rest with
        | [] => [[]]
        | t :: ts => if c = ' ' then [] :: t :: ts else (c :: t) :: ts := rfl
    rw [h1, ih hr]
    dsimp only
    rw [if_neg hc]

/-! ## Properties of the lexicographic order and sorting -/

lemma strLE_cons (x y : Char) (s t : Str) :
    strLE (x :: s) (y :: t) = if x = y then strLE s t else decide (x < y) := rfl

lemma strLE_total : ∀ a b : Str, strLE a b = true ∨ strLE b a = true := by
  intro a
  induction a with
  | nil => intro b; left; rfl
  | cons x s ih =>
    intro b
    cases b with
    | nil => right; rfl
    | cons y t =>
      by_cases hxy : x = y
      · subst hxy
        rw [strLE_cons, strLE_cons, if_pos rfl, if_pos rfl]
        exact ih t
      · have hyx : ¬ y = x := fun hc => hxy hc.symm
        rw [strLE_cons, strLE_cons, if_neg hxy, if_neg hyx]
        rcases lt_trichotomy x y with h | h | h
        · exact Or.inl (decide_eq_true h)
        · exact absurd h hxy
        · exact Or.inr (decide_eq_true h)

lemma strLE_trans : ∀ a b c : Str,
    strLE a b = true → strLE b c = true → strLE a c = true := by
  intro a
  induction a with
  | nil => intro b c _ _; rfl
  | cons x s ih =>
    intro b c hab hbc
    cases b with
    | nil => exact absurd hab (by simp [strLE])
    | cons y t =>
      cases c with
      | nil => exact absurd hbc (by simp [strLE])
      | cons z u =>
        rw [strLE_cons] at hab hbc ⊢
        by_cases hxy : x = y
        · subst hxy
          rw [if_pos rfl] at hab
          by_cases hyz : x = z
          · subst hyz
            rw [if_pos rfl] at hbc ⊢
            exact ih t u hab hbc
          · rw [if_neg hyz] at hbc ⊢
            exact hbc
        · rw [if_neg hxy] at hab
          have hxy' : x < y := of_decide_eq_true hab
          by_cases hyz : y = z
          · subst hyz
            rw [if_neg hxy]
            exact hab
          · rw [if_neg hyz] at hbc
            have hyz' : y < z := of_decide_eq_true hbc
            have hxz : x < z := lt_trans hxy' hyz'
            rw [if_neg (ne_of_lt hxz)]
            exact decide_eq_true hxz

instance : IsTotal Str (fun a b => strLE a b = true) := ⟨strLE_total⟩

instance : IsTrans Str (fun a b => strLE a b = true) := ⟨strLE_trans⟩

lemma sortStrs_sorted (l : List Str) :
    List.Sorted (fun a b => strLE a b = true) (sortStrs l) :=
  List.sorted_insertionSort _ l

lemma mem_sortStrs (l : List Str) (p : Str) : p ∈ sortStrs l ↔ p ∈ l :=
  (List.perm_insertionSort _ l).mem_iff

lemma sortStrs_ne_nil {l : List Str} (h : l ≠ []) : sortStrs l ≠ [] := by
  intro hc
  obtain ⟨x, hx⟩ := List.exists_mem_of_ne_nil l h
  have hx' : x ∈ sortStrs l := (mem_sortStrs l x).mpr hx
  rw [hc] at hx'
  exact absurd hx' (List.not_mem_nil x)

/-! ## Combined characterization of the per-word search -/

lemma solsFor_spec (dst : List Str) (q : Str) (sol : List Str) :
    sol ∈ solsFor dst q ↔
      ((∀ t ∈ sol, t ∈ dst.map normalize_word ∧ t ≠ []) ∧
        sol.flatten = (normalize_word q).reverse ∧ sol.length ≤ 1) := by
  unfold solsFor
  rw [mem_decompositions_candidates,
    validFrom_iff_flatten _ _ sol 0 (Nat.zero_le _), List.drop_zero]
  tauto

/-! ## The claims -/

/-- C5: the segmentation search is sound and exhaustive: a token list is
returned exactly when it partitions the target into at most `maximum_ngrams`
consecutive non-empty dictionary fragments; in particular the result is empty
when no such partition exists, and otherwise it contains every valid
partition, not merely one. -/
theorem decompositions_candidates_sound_and_exhaustive (norm_target : Str)
    (norm_ngrams : List Str) (maximum_ngrams : Nat) (ts : List Str) :
    ts ∈ decompositions_candidates norm_target norm_ngrams maximum_ngrams ↔
      ((∀ t ∈ ts, t ∈ norm_ngrams ∧ t ≠ []) ∧ ts.flatten = norm_target ∧
        ts.length ≤ maximum_ngrams) := by
  rw [mem_decompositions_candidates,
    validFrom_iff_flatten _ _ ts 0 (Nat.zero_le _), List.drop_zero]
  tauto

/-- C3: every segment-count key present in any inner map of the result of
`find_semordnilaps` is at most `1`: the engine invokes the decomposition
search with a hard-coded maximum of one segment, so segment counts of `2` or
more never appear, whatever the vocabularies. -/
theorem find_semordnilaps_segment_counts_le_one (src dst : List Str) (t : ℚ)
    (w : Str) (inner : Inner) (k : Nat)
    (hw : (w, inner) ∈ find_semordnilaps src dst t)
    (hk : k ∈ inner.map Prod.fst) : k ≤ 1 := by
  have hnd := (wf_find src dst t).1
  have hinner : alGet [] w (find_semordnilaps src dst t) = inner :=
    alGet_eq_of_mem _ hnd hw
  rw [← hinner] at hk
  obtain ⟨_, sol, hsol, rfl⟩ := (innerKeys_find src dst t w k).mp hk
  exact ((solsFor_spec dst w sol).mp hsol).2.2

theorem find_semordnilaps_segment_counts_le_one_witness :
    ((roma, [(1, [amor])]) ∈ find_semordnilaps [roma] [amor] 3 ∧
      1 ∈ ([(1, [amor])] : Inner).map Prod.fst) ∧ 1 ≤ 1 :=
  ⟨⟨by decide, by decide⟩,
    find_semordnilaps_segment_counts_le_one [roma] [amor] 3 roma
      [(1, [amor])] 1 (by decide) (by decide)⟩

/-- C10: threshold noninterference: for fixed vocabularies, any two threshold
values produce equal result maps — `find_semordnilaps` never reads its
`threshold` parameter. -/
theorem find_semordnilaps_threshold_noninterference (src dst : List Str)
    (t₁ t₂ : ℚ) :
    find_semordnilaps src dst t₁ = find_semordnilaps src dst t₂ := rfl

/-- C1 (refuted; the code never consults the oracle): for any score function
respecting the documented 0–8 zipf scale, the phrase `"amor"` is stored by
`find_semordnilaps {"roma"} {"amor"}` at threshold `100` even though its score
is below the threshold — indeed `filter_common_words` itself would reject it. -/
theorem find_semordnilaps_ignores_oracle_threshold (score : Str → ℚ)
    (hbound : score amor ≤ 8) :
    amor ∈ lookup3 (find_semordnilaps [roma] [amor] 100) roma 1 ∧
      score amor < 100 ∧ filter_common_words score [amor] 100 = [] := by
  have hlt : ¬ (100 : ℚ) ≤ score amor := by linarith
  refine ⟨by decide, by linarith, ?_⟩
  simp [filter_common_words, hlt]

theorem find_semordnilaps_ignores_oracle_threshold_witness :
    (fun _ : Str => (0 : ℚ)) amor ≤ 8 ∧
      amor ∈ lookup3 (find_semordnilaps [roma] [amor] 100) roma 1 :=
  ⟨by norm_num,
    (find_semordnilaps_ignores_oracle_threshold (fun _ => 0) (by norm_num)).1⟩

/-- C2 (refuted): the search pushes the normalized fragment itself, with no
origin-spelling lookup: with source `"sam"` and target `{"más"}` the only
decomposition token and the stored phrase are the normalized `"mas"`, and the
origin spelling `"más"` is never stored. -/
theorem decompositions_use_normalized_fragments_not_origins :
    decompositions_candidates (normalize_word sam).reverse
        ([masAcc].map normalize_word) 1 = [[mas]] ∧
      mas ∈ lookup3 (find_semordnilaps [sam] [masAcc] 3) sam 1 ∧
      masAcc ∉ lookup3 (find_semordnilaps [sam] [masAcc] 3) sam 1 :=
  ⟨by decide, by decide, by decide⟩

/-- C4 (counterexample to the discarding half of the claim): with source word
`""` the engine stores the empty phrase under segment count `0` instead of
discarding the empty segmentation. -/
theorem find_semordnilaps_records_empty_phrase :
    decompositions_candidates ([] : Str) [normalize_word aWord] 1 = [[]] ∧
      ([] : Str) ∈ lookup3 (find_semordnilaps [([] : Str)] [aWord] 3) [] 0 :=
  ⟨by decide, by decide⟩

/-- C4 (amended): for a source word whose normalized form is the empty string
the decomposition search on the empty target yields exactly one solution, the
empty token list, and the engine records (rather than discards) the empty
phrase under segment count `0`. -/
theorem find_semordnilaps_empty_phrase_amended (dict : List Str)
    (src dst : List Str) (t : ℚ) (w : Str) (hw : w ∈ src)
    (hnorm : normalize_word w = []) :
    decompositions_candidates ([] : Str) dict 1 = [[]] ∧
      ([] : Str) ∈ lookup3 (find_semordnilaps src dst t) w 0 := by
  constructor
  · rfl
  · rw [lookup3_find]
    refine ⟨hw, [], ?_, rfl, rfl⟩
    rw [solsFor_spec]
    exact ⟨by simp, by simp [hnorm], by simp⟩

theorem find_semordnilaps_empty_phrase_amended_witness :
    (([] : Str) ∈ [([] : Str)] ∧ normalize_word ([] : Str) = []) ∧
      ([] : Str) ∈ lookup3 (find_semordnilaps [([] : Str)] [aWord] 3) [] 0 :=
  ⟨⟨by decide, rfl⟩,
    (find_semordnilaps_empty_phrase_amended [] [([] : Str)] [aWord] 3 []
      (by decide) rfl).2⟩

/-- C6: exact-concatenation invariant: every phrase stored under `[w][k]` is
the space-join of a `k`-token segmentation whose normalized forms concatenate
to exactly `reverse(normalize(w))`. -/
theorem find_semordnilaps_exact_concatenation (src dst : List Str) (t : ℚ)
    (w : Str) (k : Nat) (p : Str)
    (hp : p ∈ lookup3 (find_semordnilaps src dst t) w k) :
    ∃ sol : List Str, sol.length = k ∧ p = joinSpace sol ∧
      (sol.map normalize_word).flatten = (normalize_word w).reverse := by
  obtain ⟨hw, sol, hsol, hk, hpj⟩ := (lookup3_find src dst t w k p).mp hp
  obtain ⟨hall, hflat, _⟩ := (solsFor_spec dst w sol).mp hsol
  refine ⟨sol, hk.symm, hpj, ?_⟩
  have hfix : ∀ tok ∈ sol, normalize_word tok = tok := by
    intro tok htok
    obtain ⟨hmem, _⟩ := hall tok htok
    obtain ⟨g, _, rfl⟩ := List.mem_map.mp hmem
    exact normalize_word_idem g
  have hmapid : sol.map normalize_word = sol := by
    have h := List.map_congr_left hfix
    simpa using h
  rw [hmapid, hflat]

theorem find_semordnilaps_exact_concatenation_witness :
    amor ∈ lookup3 (find_semordnilaps [roma] [amor] 3) roma 1 ∧
      ∃ sol : List Str, sol.length = 1 ∧ amor = joinSpace sol ∧
        (sol.map normalize_word).flatten = (normalize_word roma).reverse :=
  ⟨by decide,
    find_semordnilaps_exact_concatenation [roma] [amor] 3 roma 1 amor (by decide)⟩

/-- C7 (counterexample): with the target entry `"a b"` containing a space, the
phrase stored under segment-count key `1` splits into `2` space-separated
tokens, so the split count does not equal the key. -/
theorem find_semordnilaps_split_count_counterexample :
    aSpaceB ∈ lookup3 (find_semordnilaps [bSpaceA] [aSpaceB] 3) bSpaceA 1 ∧
      (splitSpace aSpaceB).length = 2 :=
  ⟨by decide, by decide⟩

/-- C7 (amended): every phrase stored under key `k` is the single-space join
of a `k`-token segmentation, and splitting it on single spaces yields exactly
`k` tokens provided `k ≥ 1` and no normalized target entry contains a space. -/
theorem find_semordnilaps_segment_count_amended (src dst : List Str) (t : ℚ)
    (w : Str) (k : Nat) (p : Str)
    (hp : p ∈ lookup3 (find_semordnilaps src dst t) w k) (hk : 1 ≤ k)
    (hsp : ∀ g ∈ dst, ' ' ∉ normalize_word g) :
    (splitSpace p).length = k := by
  obtain ⟨hw, sol, hsol, hkk, hpj⟩ := (lookup3_find src dst t w k p).mp hp
  obtain ⟨hall, hflat, hlen⟩ := (solsFor_spec dst w sol).mp hsol
  have hlen1 : sol.length = 1 := by omega
  obtain ⟨tok, rfl⟩ := List.length_eq_one.mp hlen1
  have hjt : joinSpace [tok] = tok := rfl
  rw [hpj, hjt]
  obtain ⟨hmem, _⟩ := hall tok (List.mem_singleton_self tok)
  obtain ⟨g, hg, rfl⟩ := List.mem_map.mp hmem
  rw [splitSpace_no_space _ (hsp g hg)]
  simp only [List.length_singleton]
  omega

theorem find_semordnilaps_segment_count_amended_witness :
    (amor ∈ lookup3 (find_semordnilaps [roma] [amor] 3) roma 1 ∧ 1 ≤ 1 ∧
      (∀ g ∈ [amor], ' ' ∉ normalize_word g)) ∧
      (splitSpace amor).length = 1 :=
  ⟨⟨by decide, le_refl 1, by decide⟩,
    find_semordnilaps_segment_count_amended [roma] [amor] 3 roma 1 amor
      (by decide) (le_refl 1) (by decide)⟩

/-- C8: `normalize_word` is a total function, maps the empty string to the
empty string, and is idempotent. -/
theorem normalize_word_total_empty_idem :
    normalize_word [] = [] ∧
      ∀ s : Str, normalize_word (normalize_word s) = normalize_word s :=
  ⟨rfl, normalize_word_idem⟩

/-- C9: the persisted payload maps each source word having at least one stored
phrase to an object whose keys are segment counts rendered as decimal strings
and whose values are non-empty lexicographically sorted arrays holding exactly
the stored phrases; a source word with no stored phrase never appears as a
key. -/
theorem save_semordnilaps_format (src dst : List Str) (t : ℚ) :
    (∀ w inner, (w, inner) ∈ save_semordnilaps (find_semordnilaps src dst t) →
      w ∈ src ∧ inner ≠ [] ∧
      ∀ ks arr, (ks, arr) ∈ inner →
        ∃ k, ks = natToStr k ∧ arr ≠ [] ∧
          List.Sorted (fun a b => strLE a b = true) arr ∧
          (∀ p, p ∈ arr ↔ p ∈ lookup3 (find_semordnilaps src dst t) w k)) ∧
    (∀ w, (∀ k p, p ∉ lookup3 (find_semordnilaps src dst t) w k) →
      ∀ inner, (w, inner) ∉ save_semordnilaps (find_semordnilaps src dst t)) := by
  obtain ⟨hnd, hent⟩ := wf_find src dst t
  constructor
  · intro w inner hmem
    unfold save_semordnilaps at hmem
    rw [List.mem_map] at hmem
    obtain ⟨e, he, heq⟩ := hmem
    obtain ⟨w₀, inner₀⟩ := e
    injection heq with h1 h2
    subst h1
    subst h2
    obtain ⟨hne, hknd, hsets⟩ := hent (w₀, inner₀) he
    refine ⟨keys_find_sub src dst t w₀ (List.mem_map_of_mem Prod.fst he), ?_, ?_⟩
    · intro hc
      exact hne (List.map_eq_nil_iff.mp hc)
    · intro ks arr harr
      rw [List.mem_map] at harr
      obtain ⟨q, hq, hqeq⟩ := harr
      obtain ⟨k, ps⟩ := q
      injection hqeq with hk1 hk2
      subst hk1
      subst hk2
      obtain ⟨hpsne, _⟩ := hsets (k, ps) hq
      refine ⟨k, rfl, sortStrs_ne_nil hpsne, sortStrs_sorted ps, ?_⟩
      intro p
      rw [mem_sortStrs]
      have hwi : alGet ([] : Inner) w₀ (find_semordnilaps src dst t) = inner₀ :=
        alGet_eq_of_mem _ hnd he
      have hkp : alGet ([] : List Str) k inner₀ = ps :=
        alGet_eq_of_mem _ hknd hq
      unfold lookup3
      rw [hwi, hkp]
  · intro w hnone inner hmem
    unfold save_semordnilaps at hmem
    rw [List.mem_map] at hmem
    obtain ⟨e, he, heq⟩ := hmem
    obtain ⟨w₀, inner₀⟩ := e
    injection heq with h1 h2
    subst h1
    obtain ⟨hne, hknd, hsets⟩ := hent (w₀, inner₀) he
    obtain ⟨q, hq⟩ := List.exists_mem_of_ne_nil inner₀ hne
    obtain ⟨k, ps⟩ := q
    obtain ⟨hpsne, _⟩ := hsets (k, ps) hq
    obtain ⟨p, hp⟩ := List.exists_mem_of_ne_nil ps hpsne
    apply hnone k p
    have hwi : alGet ([] : Inner) w₀ (find_semordnilaps src dst t) = inner₀ :=
      alGet_eq_of_mem _ hnd he
    have hkp : alGet ([] : List Str) k inner₀ = ps :=
      alGet_eq_of_mem _ hknd hq
    unfold lookup3
    rw [hwi, hkp]
    exact hp

theorem save_semordnilaps_format_witness :
    (roma, [(natToStr 1, sortStrs [amor])]) ∈
        save_semordnilaps (find_semordnilaps [roma] [amor] 3) ∧
      roma ∈ [roma] :=
  ⟨by decide,
    ((save_semordnilaps_format [roma] [amor] 3).1 roma
      [(natToStr 1, sortStrs [amor])] (by decide)).1⟩

end Semordnilap
